import Mathlib

/-!
# Verification of the jenskipper job-synchronization core

A shallow embedding of the jenskipper repository's core modules
(`jenskipper/jobs.py`, `jenskipper/utils.py`, `jenskipper/cli/push.py`,
`jenskipper/cli/build.py`), together with theorems settling the claims
about the pipeline codec, the context merging, the push reconciler and
the build orchestrator.

XML documents are embedded at the `xml.etree.ElementTree` tree level:
an element has a tag, attributes, optional text, and an ordered list of
children.  `ElementTree.fromstring` / `ElementTree.tostring` form a
deterministic bijection between well-formed documents and trees, so the
tree is the semantic payload the Python code manipulates; string-level
parsing and serialization are elided.
-/

set_option autoImplicit false

namespace Jenskipper

/-- An XML element, mirroring `xml.etree.ElementTree.Element`:
tag, attributes, optional text, ordered children.  (Tail whitespace is
dropped: the pipeline codec never reads or writes tails.) -/
inductive XTree where
  | elt (tag : String) (attrs : List (String × String)) (text : Option String)
        (children : List XTree)

namespace XTree

/-- The tag of an element. -/
def tag : XTree → String
  | .elt t _ _ _ => t

/-- The text of an element (`Element.text`). -/
def text : XTree → Option String
  | .elt _ _ tx _ => tx

/-- The children of an element. -/
def children : XTree → List XTree
  | .elt _ _ _ cs => cs

/-- Replace the children of an element, keeping tag/attrs/text. -/
def withChildren (t : XTree) (cs : List XTree) : XTree :=
  match t with
  | .elt tg a tx _ => .elt tg a tx cs

end XTree

mutual

/-- Whether some strict descendant of `t` has tag `tg`
(the element set matched by an ElementTree `.//tg` path on `t`). -/
def hasElt (tg : String) : XTree → Bool
  | .elt _ _ _ cs => hasEltL tg cs

/-- Whether some element of forest `l`, or a descendant of one, has tag `tg`. -/
def hasEltL (tg : String) : List XTree → Bool
  | [] => false
  | c :: rest => (c.tag == tg) || hasElt tg c || hasEltL tg rest

end

mutual

/-- Embedding of `tree.find('.//tg')` followed by removal of the found element from its
direct parent (the `parent_map` trick of `extract_pipeline_conf`): locate, in
document (pre-)order, the first strict descendant of `t` tagged `tg`, remove
it, and return it together with the pruned tree. -/
def extractFirst (tg : String) : XTree → Option (XTree × XTree)
  | .elt tag a tx cs =>
    (extractFirstL tg cs).map (fun p => (p.1, .elt tag a tx p.2))

/-- Forest version of `extractFirst`: document order visits an element before
its descendants, and a whole subtree before its right siblings. -/
def extractFirstL (tg : String) : List XTree → Option (XTree × List XTree)
  | [] => none
  | c :: rest =>
    if c.tag = tg then some (c, rest)
    else
      match extractFirst tg c with
      | some p => some (p.1, p.2 :: rest)
      | none => (extractFirstL tg rest).map (fun p => (p.1, c :: p.2))

end

mutual

/-- Embedding of `tree.find('.//tg').append(newChild)` in `merge_pipeline_conf`: append
`newChild` to the children of the first strict descendant of `t` tagged `tg`
(document order); `none` when no such descendant exists (in Python,
`triggers.append` on `None` raises `AttributeError`). -/
def appendAtFirst (tg : String) (newChild : XTree) : XTree → Option XTree
  | .elt tag a tx cs =>
    (appendAtFirstL tg newChild cs).map (fun cs' => .elt tag a tx cs')

/-- Forest version of `appendAtFirst`. -/
def appendAtFirstL (tg : String) (newChild : XTree) : List XTree → Option (List XTree)
  | [] => none
  | c :: rest =>
    if c.tag = tg then some (c.withChildren (c.children ++ [newChild]) :: rest)
    else
      match appendAtFirst tg newChild c with
      | some c' => some (c' :: rest)
      | none => (appendAtFirstL tg newChild rest).map (fun rest' => c :: rest')

end

/-- Embedding of `elt.findtext('./tg')`: the text of the first child of `t` tagged `tg`
(`''` when that child has no text), `none` when there is no such child. -/
def findtext (t : XTree) (tg : String) : Option String :=
  (t.children.find? (fun c => c.tag == tg)).map (fun c => c.text.getD "")

/-- Embedding of `elt.findtext('./a/b')`: document-order search over the `b`-tagged
children of `a`-tagged children of `t`. -/
def findtext2 (t : XTree) (tg1 tg2 : String) : Option String :=
  ((t.children.filter (fun c => c.tag == tg1)).flatMap
      (fun c => c.children.filter (fun d => d.tag == tg2))).head?.map
    (fun d => d.text.getD "")

/-- Python's `str.split(',')` as structural recursion over the character
list (`''.split(',') == ['']`; every separator occurrence splits). -/
def pySplitCommaAux : List Char → List Char → List String
  | [], acc => [String.mk acc.reverse]
  | c :: rest, acc =>
    if c = ',' then String.mk acc.reverse :: pySplitCommaAux rest []
    else pySplitCommaAux rest (c :: acc)

/-- Python's `s.split(',')`. -/
def pySplitComma (s : String) : List String :=
  pySplitCommaAux s.data []

/-- The whitespace characters removed by Python's `str.strip()`. -/
def isPySpace (c : Char) : Bool :=
  c = ' ' || c = '\t' || c = '\n' || c = '\r' || c = '\x0b' || c = '\x0c'

/-- Python's `s.strip()`. -/
def pyStrip (s : String) : String :=
  String.mk (((s.data.dropWhile isPySpace).reverse.dropWhile isPySpace).reverse)

/-- Translation of `LINK_ELTS` from `jenskipper/jobs.py`: the fixed triple of threshold
sub-elements for each link type; `none` models a `KeyError` on lookup. -/
def LINK_ELTS (link_type : String) : Option (List (String × String)) :=
  if link_type = "SUCCESS" then
    some [("ordinal", "0"), ("color", "BLUE"), ("completeBuild", "true")]
  else if link_type = "UNSTABLE" then
    some [("ordinal", "1"), ("color", "YELLOW"), ("completeBuild", "true")]
  else if link_type = "FAILURE" then
    some [("ordinal", "2"), ("color", "RED"), ("completeBuild", "true")]
  else none

/-- Translation of `_create_elt(tag, text)` from `jenskipper/jobs.py`. -/
def create_elt (tg : String) (tx : Option String) : XTree :=
  .elt tg [] tx []

/-- The tag of the upstream-trigger construct. -/
def rbtTag : String := "jenkins.triggers.ReverseBuildTrigger"

/-- The `ReverseBuildTrigger` element built by `merge_pipeline_conf` lines
59–68: `<spec/>`, `<upstreamProjects>', '.join(parents)</upstreamProjects>`,
and a `<threshold>` holding `<name>link_type</name>` plus the `LINK_ELTS`
triple. -/
def buildTrigger (parents : List String) (link_type : String)
    (elts : List (String × String)) : XTree :=
  .elt rbtTag [] none
    [create_elt "spec" none,
     create_elt "upstreamProjects" (some (String.intercalate ", " parents)),
     XTree.elt "threshold" [] none
       (create_elt "name" (some link_type) ::
        elts.map (fun p => create_elt p.1 (some p.2)))]

/-- Translation of `merge_pipeline_conf(conf, parents, link_type)` from `jenskipper/jobs.py`
(tree level): build the trigger element and append it to the first
`.//triggers` descendant.  `none` models the two Python failure modes (a
`KeyError` for a `link_type` outside `LINK_ELTS`, an `AttributeError` when
the document has no `triggers` element). -/
def merge_pipeline_conf (conf : XTree) (parents : List String)
    (link_type : String) : Option XTree := do
  let elts ← LINK_ELTS link_type
  appendAtFirst "triggers" (buildTrigger parents link_type elts) conf

/-- Parse the fields of a found `ReverseBuildTrigger` element, per
`extract_pipeline_conf` lines 34–38: read `./upstreamProjects` (crash —
outer `none` — when absent, as `None.split` raises), split on `','`, keep
entries that are non-blank after strip (entries are *not* stripped), and
read `./threshold/name` (which may legitimately be absent: inner
`Option`). -/
def parseRbt (rbt : XTree) : Option (List String × Option String) := do
  let up ← findtext rbt "upstreamProjects"
  let projects := (pySplitComma up).filter (fun x => pyStrip x ≠ "")
  some (projects, findtext2 rbt "threshold" "name")

/-- Translation of `extract_pipeline_conf(conf)` from `jenskipper/jobs.py` (tree level):
find the first `.//jenkins.triggers.ReverseBuildTrigger` descendant; when
present, parse its fields and remove it from its parent; when absent return
`none` pipeline bits and the document unchanged.  The outer `Option` is the
crash when the construct lacks an `upstreamProjects` child. -/
def extract_pipeline_conf (conf : XTree) :
    Option (Option (List String × Option String) × XTree) :=
  match extractFirst rbtTag conf with
  | none => some (none, conf)
  | some (rbt, pruned) => (parseRbt rbt).map (fun bits => (some bits, pruned))

/-- The parent-list transformation actually performed by a
merge-then-extract cycle: `', '`-join, `','`-split, drop blank entries. -/
def splitJoinParents (parents : List String) : List String :=
  (pySplitComma (String.intercalate ", " parents)).filter (fun x => pyStrip x ≠ "")

/-! ### Job contexts: `_normalize_job_def`, `flatten_dict`, `set_path_in_dict`,
`deep_merge` (pure value semantics) -/

/-- A Python value inside a job context: a scalar, or a nested mapping
modelled as an insertion-ordered association list (Python dict). -/
inductive Ctx where
  | scalar (n : Nat)
  | map (entries : List (String × Ctx))

/-- Python `d[k]`: first binding of `k`, if any. -/
def lookupKey : List (String × Ctx) → String → Option Ctx
  | [], _ => none
  | (k', v) :: rest, k => if k' = k then some v else lookupKey rest k

/-- Python `d[k] = v` on an insertion-ordered dict: replace the binding in
place if the key exists, else append it at the end. -/
def setKey : List (String × Ctx) → String → Ctx → List (String × Ctx)
  | [], k, v => [(k, v)]
  | (k', v') :: rest, k, v =>
    if k' = k then (k, v) :: rest else (k', v') :: setKey rest k v

/-- Python `a.update(b)`: assign every binding of `b` into `a`, in order. -/
def dictUpdate (a b : List (String × Ctx)) : List (String × Ctx) :=
  b.foldl (fun acc kv => setKey acc kv.1 kv.2) a

/-- The context computed by `_normalize_job_def` (`jenskipper/jobs.py` lines
124–126): `context = default_context.copy(); context.update(job_def_context)`
— a shallow copy followed by a shallow top-level update. -/
def normalize_job_context (default_context job_def_context : List (String × Ctx)) :
    List (String × Ctx) :=
  dictUpdate default_context job_def_context

mutual

/-- One value step of `_flatten_dict` from `jenskipper/utils.py`: a mapping
value is recursed into, any other value is a leaf at its path. -/
def flatten_val (path : List String) : Ctx → List (List String × Ctx)
  | .scalar n => [(path, .scalar n)]
  | .map m => flatten_entries path m

/-- Translation of `_flatten_dict(dct, ancestors)` from `jenskipper/utils.py`: leaves
paired with their paths, in dict order. -/
def flatten_entries (ancestors : List String) :
    List (String × Ctx) → List (List String × Ctx)
  | [] => []
  | (k, v) :: rest =>
    flatten_val (ancestors ++ [k]) v ++ flatten_entries ancestors rest

end

/-- Translation of `flatten_dict(dct)` from `jenskipper/utils.py`. -/
def flatten_dict (dct : List (String × Ctx)) : List (List String × Ctx) :=
  flatten_entries [] dct

/-- Translation of `set_path_in_dict(dct, path, value)` from `jenskipper/utils.py`, in pure
value semantics (with `inplace=False` the input is deep-copied, so the
result is a fresh value): walk `path` with `setdefault(key, {})`, then
assign `value` at the last key.  `none` models the `AttributeError` raised
when the walk hits a non-dict intermediate value. -/
def set_path_in_dict_pure :
    List (String × Ctx) → List String → Ctx → Option (List (String × Ctx))
  | d, [], _ => some d
  | d, [k], v => some (setKey d k v)
  | d, k :: rest, v =>
    match lookupKey d k with
    | some (Ctx.map m) =>
      (set_path_in_dict_pure m rest v).map (fun m' => setKey d k (Ctx.map m'))
    | some (Ctx.scalar _) => none
    | none =>
      (set_path_in_dict_pure [] rest v).map (fun m' => setKey d k (Ctx.map m'))

/-- Translation of `deep_merge(dct_a, dct_b)` from `jenskipper/utils.py`, pure value
semantics: set every flattened path of `dct_b` into (a deep copy of)
`dct_a`. -/
def deep_merge_pure (dct_a dct_b : List (String × Ctx)) :
    Option (List (String × Ctx)) :=
  (flatten_dict dct_b).foldlM
    (fun acc pv => set_path_in_dict_pure acc pv.1 pv.2) dct_a

/-! ### Push reconciler: `jenskipper/cli/push.py`

The remote server is abstracted by oracles: `pushResult` gives the outcome
`push_job_config` produces for a job (success, or a `JobTypeMismatch` with
its expected/pushed type names), and `remoteHashes` gives, per job, the
result of `get_job_config` followed by `extract_hash_from_description` /
`get_conf_hash` — `none` for `JobNotFound`, otherwise the pair (embedded
hash if any, hash of the hash-stripped remote content). -/

/-- Outcome of one `jenkins_api.push_job_config` call. -/
inductive PushResult where
  | ok
  | typeMismatch (expected_type pushed_type : String)

/-- Translation of `_push_jobs(session, jobs_names, ...)` from `jenskipper/cli/push.py`
lines 99–129: walk the batch in order, popping each successfully pushed
job off the remaining list; on a `JobTypeMismatch` stop, leaving the
failing job at the head of the remaining list.  Returns
`(mismatch_info, remaining_jobs)`. -/
def push_jobs (f : String → PushResult) :
    List String → Option (String × String × String) × List String
  | [] => (none, [])
  | j :: rest =>
    match f j with
    | .ok => push_jobs f rest
    | .typeMismatch e p => (some (j, e, p), j :: rest)

/-- The `while remaining_jobs:` loop of `push` (`jenskipper/cli/push.py`
lines 45–63): run `_push_jobs`; on a type mismatch ask
`_confirm_mismatching_job_type_overwrite`; if confirmed, delete the remote
job (which may change push outcomes: `del`) and loop, else break.  `fuel`
bounds the number of iterations; the result is the final
`remaining_jobs`. -/
def push_loop (del : (String → PushResult) → String → (String → PushResult))
    (confirm : String × String × String → Bool) :
    Nat → (String → PushResult) → List String → List String
  | 0, _, remaining => remaining
  | fuel + 1, f, remaining =>
    if remaining.isEmpty then []
    else
      match push_jobs f remaining with
      | (none, remaining') => remaining'
      | (some info, remaining') =>
        if confirm info then push_loop del confirm fuel (del f info.1) remaining'
        else remaining'

/-- The pushed-jobs report of `push` line 64:
`sorted(set(jobs_names).difference(remaining_jobs))`. -/
def pushed_report (jobs_names remaining : List String) : List String :=
  ((jobs_names.filter (fun j => decide (j ∉ remaining))).dedup).mergeSort
    (fun a b => a ≤ b)

/-- The loop body condition of `_check_for_gui_modifications`: drift holds
for a job when its remote config exists (`none` = `JobNotFound`, benign)
and embeds a hash different from the hash of the stripped remote
content. -/
def gui_modified (remoteHashes : String → Option (Option Nat × Nat))
    (j : String) : Bool :=
  match remoteHashes j with
  | none => false
  | some (saved, actual) => saved ≠ none && saved ≠ some actual

/-- Translation of `_check_for_gui_modifications` (`jenskipper/cli/push.py` lines 72–96):
with `allow_overwrite` nothing is checked; otherwise every requested job
with drift is reported, and the whole command exits (`context.exit(1)`)
when any job was reported. -/
def check_for_gui_modifications
    (remoteHashes : String → Option (Option Nat × Nat)) (allow_overwrite : Bool)
    (jobs_names : List String) : List String × Bool :=
  if allow_overwrite then ([], false)
  else
    let reported := jobs_names.filter (gui_modified remoteHashes)
    (reported, !reported.isEmpty)

/-- The `push` command (`jenskipper/cli/push.py` lines 31–66) from the point
where the repository data is loaded (the `server.forbid_push` check, which
exits independently of any job, is behind it): run the GUI-modification
check — which exits the whole run before anything is pushed when it
reports — then the push loop, and report
`(gui_modified, pushed, not_pushed)`. -/
def push_command (remoteHashes : String → Option (Option Nat × Nat))
    (allow_overwrite : Bool) (f : String → PushResult)
    (del : (String → PushResult) → String → (String → PushResult))
    (confirm : String × String × String → Bool) (fuel : Nat)
    (jobs_names : List String) : List String × List String × List String :=
  let (reported, exited) :=
    check_for_gui_modifications remoteHashes allow_overwrite jobs_names
  if exited then (reported, [], jobs_names)
  else
    let remaining := push_loop del confirm fuel f jobs_names
    (reported, pushed_report jobs_names remaining, remaining)

/-! ### Build orchestrator: `jenskipper/cli/build.py`

The remote server is abstracted by response oracles; the polling loops are
bounded by explicit fuel (the Python loops have no bound — they spin until
the working set empties). -/

/-- The observable outcome of one `get_object(queue_url)` call inside
`_get_builds_urls`: an HTTP error with its status code, or queue infos
that either carry an `executable` build URL or not. -/
inductive QueueResp where
  | httpError (code : Nat)
  | infos (executable : Option String)
  deriving DecidableEq

/-- Whether a queue response is a transport failure that `_get_builds_urls`
re-raises: any HTTP error whose status code is not 404. -/
def QueueResp.isTransportError : QueueResp → Bool
  | .httpError c => c ≠ 404
  | .infos _ => false

/-- One full sweep of the `while queue_urls:` loop of `_get_builds_urls`
(`jenskipper/cli/build.py` lines 144–162), processing every working-set
entry in order: a 404 reports the job as `unknown status` and drops it;
any other HTTP error is re-raised, aborting the run; an `executable` field
resolves the job to its build URL; otherwise the entry stays queued.
Returns `Except`-wrapped `(still_queued, resolved, unknown)`. -/
def sweep_queue (resp : String → QueueResp) :
    List (String × String) →
      Except Nat (List (String × String) × List (String × String) × List String)
  | [] => .ok ([], [], [])
  | (j, q) :: rest =>
    match resp j with
    | .httpError c =>
      if c = 404 then
        (sweep_queue resp rest).map (fun r => (r.1, r.2.1, j :: r.2.2))
      else .error c
    | .infos (some u) =>
      (sweep_queue resp rest).map (fun r => (r.1, (j, u) :: r.2.1, r.2.2))
    | .infos none =>
      (sweep_queue resp rest).map (fun r => ((j, q) :: r.1, r.2.1, r.2.2))

/-- One sweep of the `while builds_urls:` loop of `_poll_builds`
(`jenskipper/cli/build.py` lines 169–177): the oracle gives, per job,
`none` while the build's `result` is null, or the terminal
`(result, runs_urls)` pair; finished builds are recorded as
`(build_url, result, runs_urls)` in working-set order and removed. -/
def sweep_poll (resp : String → Option (String × List String)) :
    List (String × String) →
      List (String × String) × List (String × (String × String × List String))
  | [] => ([], [])
  | (j, b) :: rest =>
    match resp j with
    | some p =>
      ((sweep_poll resp rest).1, (j, (b, p.1, p.2)) :: (sweep_poll resp rest).2)
    | none => ((j, b) :: (sweep_poll resp rest).1, (sweep_poll resp rest).2)

/-- Translation of `_poll_builds(jenkins_url, builds_urls)` (lines 166–178), driven by a
sweep-indexed response oracle and bounded by `fuel` sweeps: sweep the
working set repeatedly, accumulating finished builds in completion order,
until it is empty (`none` when the fuel runs out first). -/
def poll_builds (respAt : Nat → String → Option (String × List String)) :
    Nat → Nat → List (String × String) →
      Option (List (String × (String × String × List String)))
  | 0, _, working => if working.isEmpty then some [] else none
  | fuel + 1, s, working =>
    if working.isEmpty then some []
    else
      (poll_builds respAt fuel (s + 1) (sweep_poll (respAt s) working).1).map
        (fun out => (sweep_poll (respAt s) working).2 ++ out)

/-- The order in which the `build` command prints per-job results
(`jenskipper/cli/build.py` lines 38–40): the iteration order of the
results mapping returned by `wait_for_builds`. -/
def build_report_order
    (results : List (String × (String × String × List String))) : List String :=
  results.map Prod.fst

/-- A Python value as compared by the exit test of `build` line 41: the
string `'SUCCESS'`, or a `(build_url, result, runs_urls)` tuple. -/
inductive PyVal where
  | str (s : String)
  | tuple (build_url result : String) (runs_urls : List String)
  deriving DecidableEq

/-- The exit-status test of `build` line 41:
`sys.exit(any(r != 'SUCCESS' for r in results.values()))` — each `r` is
the whole `(build_url, result, runs_urls)` tuple, compared against the
string `'SUCCESS'`. -/
def build_exit_nonzero
    (results : List (String × (String × String × List String))) : Bool :=
  results.any (fun kv =>
    PyVal.tuple kv.2.1 kv.2.2.1 kv.2.2.2 ≠ PyVal.str "SUCCESS")

/-! ### Heap model of `set_path_in_dict` / `deep_merge` with `inplace=False`

Python dicts are mutable objects; the frame property "the inputs are not
modified" is about aliasing, so these two functions are embedded against an
explicit heap: addresses hold dict contents, values are scalars or
references to other dicts, `copy.deepcopy` allocates fresh addresses, and
mutation is an update of the store at an address. -/

/-- A Python value stored in a dict: an (immutable) scalar, or a reference
to a dict living at a heap address. -/
inductive PVal where
  | scalar (n : Nat)
  | ref (a : Nat)
  deriving DecidableEq

/-- The contents of one Python dict: insertion-ordered bindings. -/
abbrev PDict := List (String × PVal)

/-- Address lookup in a heap store (first binding wins, so updates
prepend). -/
def storeLookup : List (Nat × PDict) → Nat → Option PDict
  | [], _ => none
  | (a', d) :: rest, a => if a' = a then some d else storeLookup rest a

/-- The heap: dict contents per address, plus the next fresh address. -/
structure Heap where
  store : List (Nat × PDict)
  next : Nat

/-- Read the dict at address `a`. -/
def Heap.get (h : Heap) (a : Nat) : Option PDict :=
  storeLookup h.store a

/-- Overwrite the dict at address `a` (mutation of that object). -/
def Heap.set (h : Heap) (a : Nat) (d : PDict) : Heap :=
  ⟨(a, d) :: h.store, h.next⟩

/-- Allocate a new dict object at the next fresh address. -/
def Heap.alloc (h : Heap) (d : PDict) : Nat × Heap :=
  (h.next, ⟨(h.next, d) :: h.store, h.next + 1⟩)

/-- Every allocated address lies below the allocation bound (decidable, so
witnesses can check it on concrete heaps). -/
def Heap.wfBool (h : Heap) : Bool :=
  h.store.all (fun ad => decide (ad.1 < h.next))

/-- Every reference stored at an address `≥ n` points to an address `≥ n`:
the region at and above `n` is closed (no pointers back into the old
region are traversed). -/
def Heap.closedAbove (h : Heap) (n : Nat) : Prop :=
  ∀ a d, h.get a = some d → n ≤ a → ∀ k b, (k, PVal.ref b) ∈ d → n ≤ b

/-- Python `d[k]` on dict contents. -/
def getEntry : PDict → String → Option PVal
  | [], _ => none
  | (k', v) :: rest, k => if k' = k then some v else getEntry rest k

/-- Python `d[k] = v` on dict contents: replace in place or append. -/
def setEntry : PDict → String → PVal → PDict
  | [], k, v => [(k, v)]
  | (k', v') :: rest, k, v =>
    if k' = k then (k, v) :: rest else (k', v') :: setEntry rest k v

mutual

/-- Embedding of `copy.deepcopy` on a single value: scalars are immutable, a dict
reference is recursively copied into a fresh address.  `fuel` bounds the
recursion depth (every recursive call consumes one unit). -/
def dcVal : Nat → Heap → PVal → Option (PVal × Heap)
  | _, h, .scalar n => some (.scalar n, h)
  | 0, _, .ref _ => none
  | fuel + 1, h, .ref a =>
    match h.get a with
    | none => none
    | some d =>
      match dcDict fuel h d with
      | none => none
      | some (d', h1) => some (.ref (h1.alloc d').1, (h1.alloc d').2)

/-- Embedding of `copy.deepcopy` on dict contents: copy the values left to right,
threading the heap. -/
def dcDict : Nat → Heap → PDict → Option (PDict × Heap)
  | _, h, [] => some ([], h)
  | 0, _, _ :: _ => none
  | fuel + 1, h, (k, v) :: rest =>
    match dcVal fuel h v with
    | none => none
    | some (v', h1) =>
      match dcDict fuel h1 rest with
      | none => none
      | some (rest', h2) => some ((k, v') :: rest', h2)

end

/-- The `while keys:` loop of `set_path_in_dict` (`jenskipper/utils.py`
lines 100–106), mutating the dict at address `cur`: intermediate keys walk
via `cur.setdefault(cur_key, {})` — following an existing dict reference,
failing on a scalar (`AttributeError`), or allocating a fresh empty dict —
and the last key assigns `value`. -/
def setPathLoop : Heap → Nat → List String → PVal → Option Heap
  | h, _, [], _ => some h
  | h, cur, [k], v =>
    match h.get cur with
    | none => none
    | some d => some (h.set cur (setEntry d k v))
  | h, cur, k :: k2 :: rest, v =>
    match h.get cur with
    | none => none
    | some d =>
      match getEntry d k with
      | some (.ref b) => setPathLoop h b (k2 :: rest) v
      | some (.scalar _) => none
      | none =>
        setPathLoop
          (((h.alloc []).2).set cur (setEntry d k (.ref (h.alloc []).1)))
          (h.alloc []).1 (k2 :: rest) v

/-- Translation of `set_path_in_dict(dct, path, value, inplace=False)` from
`jenskipper/utils.py` lines 86–107: deep-copy the input dict, then run the
key walk on the copy; the copy's address is returned. -/
def set_path_in_dict (fuel : Nat) (h : Heap) (dct : Nat) (path : List String)
    (v : PVal) : Option (Nat × Heap) :=
  match dcVal fuel h (.ref dct) with
  | some (.ref ret, h1) => (setPathLoop h1 ret path v).map (fun h2 => (ret, h2))
  | _ => none

mutual

/-- Translation of `_flatten_dict` into the heap model (read-only): a reference is a
mapping and is recursed into, a scalar is a leaf (with its payload). -/
def flattenHVal : Nat → Heap → List String → PVal → Option (List (List String × Nat))
  | _, _, path, .scalar n => some [(path, n)]
  | 0, _, _, .ref _ => none
  | fuel + 1, h, path, .ref a =>
    match h.get a with
    | none => none
    | some d => flattenHDict fuel h path d

/-- Translation of `_flatten_dict` over dict contents, in dict order. -/
def flattenHDict : Nat → Heap → List String → PDict → Option (List (List String × Nat))
  | _, _, _, [] => some []
  | 0, _, _, _ :: _ => none
  | fuel + 1, h, path, (k, v) :: rest =>
    match flattenHVal fuel h (path ++ [k]) v with
    | none => none
    | some items =>
      (flattenHDict fuel h path rest).map (fun items2 => items ++ items2)

end

/-- Translation of `deep_merge(dct_a, dct_b, inplace=False)` from `jenskipper/utils.py`
lines 110–124: deep-copy `dct_a`, flatten `dct_b` (a read-only walk), then
set each flattened scalar leaf into the copy in place
(`set_path_in_dict(ret, path, value, inplace=True)`). -/
def deep_merge (fuel : Nat) (h : Heap) (a b : Nat) : Option (Nat × Heap) :=
  match dcVal fuel h (.ref a) with
  | some (.ref ret, h1) =>
    match h1.get b with
    | none => none
    | some db =>
      match flattenHDict fuel h1 [] db with
      | none => none
      | some flat =>
        (flat.foldlM (fun hh pv => setPathLoop hh ret pv.1 (.scalar pv.2))
          h1).map (fun h2 => (ret, h2))
  | _ => none

/-! ## Theorems -/

@[simp] theorem XTree.tag_elt (t : String) (a : List (String × String))
    (tx : Option String) (cs : List XTree) : (XTree.elt t a tx cs).tag = t := rfl

@[simp] theorem XTree.text_elt (t : String) (a : List (String × String))
    (tx : Option String) (cs : List XTree) : (XTree.elt t a tx cs).text = tx := rfl

@[simp] theorem XTree.children_elt (t : String) (a : List (String × String))
    (tx : Option String) (cs : List XTree) :
    (XTree.elt t a tx cs).children = cs := rfl

@[simp] theorem XTree.withChildren_elt (t : String) (a : List (String × String))
    (tx : Option String) (cs cs' : List XTree) :
    (XTree.elt t a tx cs).withChildren cs' = XTree.elt t a tx cs' := rfl

/-- Appending with `appendAtFirst` does not change the tag of the root element. -/
theorem appendAtFirst_tag (tg : String) (nc : XTree) (t t' : XTree)
    (h : appendAtFirst tg nc t = some t') : t'.tag = t.tag := by
  cases t with
  | elt tag a tx cs =>
    simp only [appendAtFirst, Option.map_eq_some'] at h
    obtain ⟨cs', _, rfl⟩ := h
    rfl

mutual

/-- A tree without any `tg`-tagged strict descendant yields nothing to
extract. -/
theorem extractFirst_eq_none (tg : String) (t : XTree)
    (h : hasElt tg t = false) : extractFirst tg t = none := by
  cases t with
  | elt tag a tx cs =>
    have hcs : hasEltL tg cs = false := h
    rw [extractFirst, extractFirstL_eq_none tg cs hcs]
    rfl

/-- Forest version of `extractFirst_eq_none`. -/
theorem extractFirstL_eq_none (tg : String) (l : List XTree)
    (h : hasEltL tg l = false) : extractFirstL tg l = none := by
  cases l with
  | nil => rfl
  | cons c rest =>
    rw [hasEltL] at h
    simp only [Bool.or_eq_false_iff, beq_eq_false_iff_ne] at h
    obtain ⟨⟨htag, hc⟩, hrest⟩ := h
    rw [extractFirstL, if_neg htag, extractFirst_eq_none tg c hc,
      extractFirstL_eq_none tg rest hrest]
    rfl

end

/-- Extracting from a clean forest with a matching element appended at the
end finds exactly that element and restores the forest. -/
theorem extractFirstL_append (tg : String) (tr : XTree) (htr : tr.tag = tg)
    (l : List XTree) (h : hasEltL tg l = false) :
    extractFirstL tg (l ++ [tr]) = some (tr, l) := by
  induction l with
  | nil => simp [extractFirstL, htr]
  | cons c rest ih =>
    rw [hasEltL] at h
    simp only [Bool.or_eq_false_iff, beq_eq_false_iff_ne] at h
    obtain ⟨⟨htag, hc⟩, hrest⟩ := h
    rw [List.cons_append, extractFirstL, if_neg htag,
      extractFirst_eq_none tg c hc, ih hrest]
    rfl

mutual

/-- Appending a `tgR`-tagged element into a document free of `tgR` elements
and then extracting the first `tgR` element recovers the element and the
original document. -/
theorem append_extract_tree (tgA tgR : String) (tr : XTree)
    (htr : tr.tag = tgR) (t m : XTree) (hclean : hasElt tgR t = false)
    (happ : appendAtFirst tgA tr t = some m) :
    extractFirst tgR m = some (tr, t) := by
  cases t with
  | elt tag a tx cs =>
    simp only [appendAtFirst, Option.map_eq_some'] at happ
    obtain ⟨cs', hcs', rfl⟩ := happ
    have hl := append_extract_list tgA tgR tr htr cs cs' hclean hcs'
    rw [extractFirst, hl]
    rfl

/-- Forest version of `append_extract_tree`. -/
theorem append_extract_list (tgA tgR : String) (tr : XTree)
    (htr : tr.tag = tgR) (l l' : List XTree) (hclean : hasEltL tgR l = false)
    (happ : appendAtFirstL tgA tr l = some l') :
    extractFirstL tgR l' = some (tr, l) := by
  cases l with
  | nil => simp [appendAtFirstL] at happ
  | cons c rest =>
    rw [hasEltL] at hclean
    simp only [Bool.or_eq_false_iff, beq_eq_false_iff_ne] at hclean
    obtain ⟨⟨htag, hc⟩, hrest⟩ := hclean
    rw [appendAtFirstL] at happ
    by_cases hA : c.tag = tgA
    · rw [if_pos hA, Option.some_inj] at happ
      subst happ
      cases c with
      | elt ctag ca ctx ccs =>
        simp only [XTree.tag_elt] at htag
        have hccs : hasEltL tgR ccs = false := hc
        simp only [XTree.withChildren_elt, XTree.children_elt]
        rw [extractFirstL]
        simp only [XTree.tag_elt]
        rw [if_neg htag, extractFirst, extractFirstL_append tgR tr htr _ hccs]
        rfl
    · rw [if_neg hA] at happ
      cases hin : appendAtFirst tgA tr c with
      | some c' =>
        rw [hin, Option.some_inj] at happ
        subst happ
        have htag' : c'.tag ≠ tgR := by
          rw [appendAtFirst_tag tgA tr c c' hin]; exact htag
        rw [extractFirstL, if_neg htag',
          append_extract_tree tgA tgR tr htr c c' hc hin]
      | none =>
        rw [hin] at happ
        simp only [Option.map_eq_some'] at happ
        obtain ⟨rest', hrest', rfl⟩ := happ
        rw [extractFirstL, if_neg htag, extractFirst_eq_none tgR c hc,
          append_extract_list tgA tgR tr htr rest rest' hrest hrest']
        rfl

end

mutual

/-- The append `appendAtFirst` succeeds exactly on trees that have a `tg`-tagged strict
descendant (the `.//tg` find of `merge_pipeline_conf`). -/
theorem appendAtFirst_isSome (tg : String) (nc : XTree) (t : XTree) :
    (appendAtFirst tg nc t).isSome = hasElt tg t := by
  cases t with
  | elt tag a tx cs =>
    rw [appendAtFirst, Option.isSome_map']
    exact appendAtFirstL_isSome tg nc cs

/-- Forest version of `appendAtFirst_isSome`. -/
theorem appendAtFirstL_isSome (tg : String) (nc : XTree) (l : List XTree) :
    (appendAtFirstL tg nc l).isSome = hasEltL tg l := by
  cases l with
  | nil => rfl
  | cons c rest =>
    rw [appendAtFirstL, hasEltL]
    by_cases hA : c.tag = tg
    · simp [hA, if_pos]
    · rw [if_neg hA]
      cases hin : appendAtFirst tg nc c with
      | some c' =>
        have := appendAtFirst_isSome tg nc c
        rw [hin] at this
        simp [← this, hA]
      | none =>
        have := appendAtFirst_isSome tg nc c
        rw [hin] at this
        simp only [Option.isSome_map']
        simp [← this, hA, appendAtFirstL_isSome tg nc rest]

end

/-- The key composition step behind the merge/extract round trip: once the
link-type lookup and the append both succeed and the trigger parses back,
the two operations are inverse on the document part. -/
theorem merge_extract_of_append (d m : XTree) (parents : List String)
    (lt : String) (elts : List (String × String))
    (helts : LINK_ELTS lt = some elts) (hR : hasElt rbtTag d = false)
    (hm : appendAtFirst "triggers" (buildTrigger parents lt elts) d = some m)
    (hparse : parseRbt (buildTrigger parents lt elts) =
      some (splitJoinParents parents, some lt)) :
    merge_pipeline_conf d parents lt = some m ∧
      extract_pipeline_conf m = some (some (splitJoinParents parents, some lt), d) := by
  constructor
  · rw [merge_pipeline_conf, helts]
    exact hm
  · have hx := append_extract_tree "triggers" rbtTag
      (buildTrigger parents lt elts) rfl d m hR hm
    rw [extract_pipeline_conf, hx]
    show (parseRbt (buildTrigger parents lt elts)).map (fun bits => (some bits, d)) = _
    rw [hparse]
    rfl

/-- A successful append means the document had a `triggers` element. -/
theorem merge_append_exists (d : XTree) (tr : XTree)
    (hT : hasElt "triggers" d = true) :
    ∃ m, appendAtFirst "triggers" tr d = some m := by
  have h := appendAtFirst_isSome "triggers" tr d
  rw [hT] at h
  exact Option.isSome_iff_exists.mp h

/-- C1 (amended): for a document with a `triggers` collection and no
upstream-trigger construct, and `linkType ∈ {SUCCESS, UNSTABLE, FAILURE}`,
`extract_pipeline_conf (merge_pipeline_conf d parents linkType)` returns the
link type and the document `d` exactly, but the parent list comes back as
`', '.join(parents)` re-split on `','` with blank entries dropped
(`splitJoinParents`): equal to `parents` element for element only when
`parents` has at most one (comma-free, non-blank) element — every later
element gains a leading space. -/
theorem extract_merge_pipeline_roundtrip (d : XTree) (parents : List String)
    (lt : String) (hT : hasElt "triggers" d = true)
    (hR : hasElt rbtTag d = false)
    (hlt : lt = "SUCCESS" ∨ lt = "UNSTABLE" ∨ lt = "FAILURE") :
    ∃ m, merge_pipeline_conf d parents lt = some m ∧
      extract_pipeline_conf m =
        some (some (splitJoinParents parents, some lt), d) := by
  rcases hlt with rfl | rfl | rfl
  · obtain ⟨m, hm⟩ := merge_append_exists d
      (buildTrigger parents "SUCCESS"
        [("ordinal", "0"), ("color", "BLUE"), ("completeBuild", "true")]) hT
    exact ⟨m, merge_extract_of_append d m parents _ _ rfl hR hm rfl⟩
  · obtain ⟨m, hm⟩ := merge_append_exists d
      (buildTrigger parents "UNSTABLE"
        [("ordinal", "1"), ("color", "YELLOW"), ("completeBuild", "true")]) hT
    exact ⟨m, merge_extract_of_append d m parents _ _ rfl hR hm rfl⟩
  · obtain ⟨m, hm⟩ := merge_append_exists d
      (buildTrigger parents "FAILURE"
        [("ordinal", "2"), ("color", "RED"), ("completeBuild", "true")]) hT
    exact ⟨m, merge_extract_of_append d m parents _ _ rfl hR hm rfl⟩

/-- Witness for `extract_merge_pipeline_roundtrip` at a concrete document
and a singleton parent list, where the round trip is exact. -/
theorem extract_merge_pipeline_roundtrip_witness :
    hasElt "triggers" (XTree.elt "project" [] none
        [.elt "triggers" [] none []]) = true ∧
    hasElt rbtTag (XTree.elt "project" [] none
        [.elt "triggers" [] none []]) = false ∧
    splitJoinParents ["stupeflix"] = ["stupeflix"] ∧
    ∃ m, merge_pipeline_conf (XTree.elt "project" [] none
        [.elt "triggers" [] none []]) ["stupeflix"] "SUCCESS" = some m ∧
      extract_pipeline_conf m = some
        (some (splitJoinParents ["stupeflix"], some "SUCCESS"),
         XTree.elt "project" [] none [.elt "triggers" [] none []]) :=
  ⟨by decide, by decide, by decide,
   extract_merge_pipeline_roundtrip
     (XTree.elt "project" [] none [.elt "triggers" [] none []])
     ["stupeflix"] "SUCCESS" (by decide) (by decide) (Or.inl rfl)⟩

/-- C1 counterexample: with two parents `["a", "b"]`, the merge-then-extract
cycle returns `["a", " b"]` — the second parent gains a leading space — so
the extracted parent list does not equal the original element for element. -/
theorem extract_merge_pipeline_roundtrip_counterexample :
    ∃ m, merge_pipeline_conf (XTree.elt "project" [] none
        [.elt "triggers" [] none []]) ["a", "b"] "SUCCESS" = some m ∧
      extract_pipeline_conf m = some (some (["a", " b"], some "SUCCESS"),
        XTree.elt "project" [] none [.elt "triggers" [] none []]) ∧
      (["a", " b"] : List String) ≠ ["a", "b"] :=
  ⟨_, rfl, rfl, by decide⟩

/-- C7: on a document with no upstream-trigger construct,
`extract_pipeline_conf` returns `none` pipeline bits and the document
unchanged (tree-level identity; re-serialization by `_format_xml_tree` is
deterministic). -/
theorem extract_pipeline_conf_no_rbt (d : XTree)
    (hR : hasElt rbtTag d = false) :
    extract_pipeline_conf d = some (none, d) := by
  rw [extract_pipeline_conf, extractFirst_eq_none rbtTag d hR]

/-- Witness for `extract_pipeline_conf_no_rbt` on a concrete pipeline-free
document. -/
theorem extract_pipeline_conf_no_rbt_witness :
    extract_pipeline_conf (XTree.elt "project" [] none
        [.elt "builders" [] none []]) =
      some (none, XTree.elt "project" [] none [.elt "builders" [] none []]) :=
  extract_pipeline_conf_no_rbt _ (by decide)

/-- C9: `merge_pipeline_conf` returns a document exactly when the input has
a `triggers` collection element and the link type is one of `SUCCESS`,
`UNSTABLE`, `FAILURE`; outside that precondition it fails (Python raises
`KeyError` or `AttributeError`) instead of returning a document. -/
theorem merge_pipeline_conf_isSome_iff (d : XTree) (parents : List String)
    (lt : String) :
    (merge_pipeline_conf d parents lt).isSome = true ↔
      (hasElt "triggers" d = true ∧
        (lt = "SUCCESS" ∨ lt = "UNSTABLE" ∨ lt = "FAILURE")) := by
  by_cases h1 : lt = "SUCCESS"
  · subst h1
    rw [show merge_pipeline_conf d parents "SUCCESS" =
        appendAtFirst "triggers" (buildTrigger parents "SUCCESS"
          [("ordinal", "0"), ("color", "BLUE"), ("completeBuild", "true")]) d
      from rfl]
    simp [appendAtFirst_isSome]
  · by_cases h2 : lt = "UNSTABLE"
    · subst h2
      rw [show merge_pipeline_conf d parents "UNSTABLE" =
          appendAtFirst "triggers" (buildTrigger parents "UNSTABLE"
            [("ordinal", "1"), ("color", "YELLOW"), ("completeBuild", "true")]) d
        from rfl]
      simp [appendAtFirst_isSome]
    · by_cases h3 : lt = "FAILURE"
      · subst h3
        rw [show merge_pipeline_conf d parents "FAILURE" =
            appendAtFirst "triggers" (buildTrigger parents "FAILURE"
              [("ordinal", "2"), ("color", "RED"), ("completeBuild", "true")]) d
          from rfl]
        simp [appendAtFirst_isSome]
      · have : LINK_ELTS lt = none := by simp [LINK_ELTS, h1, h2, h3]
        rw [merge_pipeline_conf, this]
        simp [h1, h2, h3]

/-- Assigning a key makes it look up to the assigned value. -/
theorem lookupKey_setKey_self (d : List (String × Ctx)) (k : String) (v : Ctx) :
    lookupKey (setKey d k v) k = some v := by
  induction d with
  | nil => simp [setKey, lookupKey]
  | cons kv rest ih =>
    obtain ⟨k', v'⟩ := kv
    by_cases h : k' = k
    · simp [setKey, h, lookupKey]
    · simp [setKey, h, lookupKey, ih]

/-- Assigning one key leaves lookups of other keys unchanged. -/
theorem lookupKey_setKey_other (d : List (String × Ctx)) (k' : String) (v : Ctx)
    (k : String) (h : k' ≠ k) : lookupKey (setKey d k' v) k = lookupKey d k := by
  induction d with
  | nil => simp [setKey, lookupKey, h]
  | cons kv rest ih =>
    obtain ⟨k0, v0⟩ := kv
    by_cases h0 : k0 = k'
    · subst h0
      simp [setKey, lookupKey, h, ih]
    · simp only [setKey, if_neg h0]
      by_cases hk : k0 = k
      · simp [lookupKey, hk]
      · simp [lookupKey, hk, ih]

/-- A key absent from a dict looks up to nothing. -/
theorem lookupKey_eq_none (l : List (String × Ctx)) (k : String)
    (h : k ∉ l.map Prod.fst) : lookupKey l k = none := by
  induction l with
  | nil => rfl
  | cons kv rest ih =>
    simp only [List.map_cons, List.mem_cons] at h
    push_neg at h
    rw [lookupKey, if_neg (fun hk => h.1 hk.symm)]
    exact ih h.2

/-- C6 (amended): the context a job is rendered with is the *shallow*
update of the default context by the job-level context
(`default_context.copy()` + `dict.update`): any key present in the
job-level context takes its job-level value wholesale — including when both
sides hold nested mappings under that key, which are *not* merged
recursively (deep-merge semantics applies only to command-line context
overrides, via `deep_merge`/`set_path_in_dict`). -/
theorem normalize_job_context_lookup (default_context job : List (String × Ctx))
    (hb : (job.map Prod.fst).Nodup) (k : String) :
    lookupKey (normalize_job_context default_context job) k =
      (lookupKey job k).or (lookupKey default_context k) := by
  induction job generalizing default_context with
  | nil => rfl
  | cons kv rest ih =>
    obtain ⟨k0, v0⟩ := kv
    simp only [List.map_cons, List.nodup_cons] at hb
    obtain ⟨hk0, hrest⟩ := hb
    have hstep : normalize_job_context default_context ((k0, v0) :: rest) =
        normalize_job_context (setKey default_context k0 v0) rest := rfl
    rw [hstep, ih (setKey default_context k0 v0) hrest]
    by_cases hk : k0 = k
    · subst hk
      rw [lookupKey_eq_none rest k0 (by simpa using hk0),
        lookupKey_setKey_self]
      simp [lookupKey]
    · rw [lookupKey_setKey_other default_context k0 v0 k hk]
      simp [lookupKey, hk]

/-- Witness for `normalize_job_context_lookup` on concrete contexts. -/
theorem normalize_job_context_lookup_witness :
    ((([("x", Ctx.scalar 9)] : List (String × Ctx)).map Prod.fst).Nodup) ∧
    lookupKey (normalize_job_context [("x", .scalar 1), ("y", .scalar 2)]
        [("x", .scalar 9)]) "x" =
      (lookupKey [("x", Ctx.scalar 9)] "x").or
        (lookupKey [("x", .scalar 1), ("y", .scalar 2)] "x") :=
  ⟨by simp, normalize_job_context_lookup
    [("x", .scalar 1), ("y", .scalar 2)] [("x", .scalar 9)] (by simp) "x"⟩

/-- C6 counterexample: with default `{'a': {'b': 1, 'c': 2}}` and job-level
override `{'a': {'b': 3}}`, `_normalize_job_def` produces `{'a': {'b': 3}}`
(the nested default key `'c'` is lost), while the deep merge the claim
describes keeps it: the job context is not the deep merge of the two
mappings. -/
theorem normalize_job_context_not_deep_merge :
    normalize_job_context [("a", Ctx.map [("b", .scalar 1), ("c", .scalar 2)])]
        [("a", Ctx.map [("b", .scalar 3)])] =
      [("a", Ctx.map [("b", .scalar 3)])] ∧
    deep_merge_pure [("a", Ctx.map [("b", .scalar 1), ("c", .scalar 2)])]
        [("a", Ctx.map [("b", .scalar 3)])] =
      some [("a", Ctx.map [("b", .scalar 3), ("c", .scalar 2)])] ∧
    ([("a", Ctx.map [("b", .scalar 3)])] : List (String × Ctx)) ≠
      [("a", Ctx.map [("b", .scalar 3), ("c", .scalar 2)])] :=
  ⟨rfl, rfl, by simp⟩

/-- Running `_push_jobs` on a batch whose prefix pushes cleanly and whose next job
hits a type mismatch stops there: the mismatch is reported and the failing
job heads the remaining list. -/
theorem push_jobs_mismatch (f : String → PushResult) (before after : List String)
    (X e p : String) (hok : ∀ j ∈ before, f j = .ok)
    (hX : f X = .typeMismatch e p) :
    push_jobs f (before ++ X :: after) = (some (X, e, p), X :: after) := by
  induction before with
  | nil => simp [push_jobs, hX]
  | cons b rest ih =>
    have hb : f b = .ok := hok b (List.mem_cons_self b rest)
    rw [List.cons_append, push_jobs, hb]
    exact ih (fun j hj => hok j (List.mem_cons_of_mem b hj))

/-- When the batch splits as `before ++ X :: after` with no duplicates and
the final remaining list is `X :: after`, the pushed-jobs report is exactly
the jobs before `X` (up to sorting). -/
theorem pushed_report_perm_before (before after : List String) (X : String)
    (hnodup : (before ++ X :: after).Nodup) :
    (pushed_report (before ++ X :: after) (X :: after)).Perm before := by
  rw [List.nodup_append] at hnodup
  obtain ⟨hnb, _, hdisj⟩ := hnodup
  have hfilter : (before ++ X :: after).filter
      (fun j => decide (j ∉ (X :: after))) = before := by
    rw [List.filter_append]
    have h1 : before.filter (fun j => decide (j ∉ (X :: after))) = before := by
      apply List.filter_eq_self.mpr
      intro a ha
      simpa using hdisj ha
    have h2 : (X :: after).filter (fun j => decide (j ∉ (X :: after))) = [] := by
      apply List.filter_eq_nil_iff.mpr
      intro a ha
      simp only [decide_eq_true_eq]
      exact not_not_intro ha
    rw [h1, h2, List.append_nil]
  rw [pushed_report, hfilter, hnb.dedup]
  exact List.mergeSort_perm before _

/-- C2: in a push run without drift, when job `X` fails with a type
mismatch and the delete-and-retry confirmation is declined, the run ends
with exactly the jobs strictly before `X` in the batch reported as pushed,
and `X` together with every job after it reported as not pushed. -/
theorem push_mismatch_decline_partition
    (remoteHashes : String → Option (Option Nat × Nat))
    (f : String → PushResult)
    (del : (String → PushResult) → String → (String → PushResult))
    (confirm : String × String × String → Bool)
    (fuel : Nat) (before after : List String) (X e p : String)
    (hfuel : 0 < fuel)
    (hnodup : (before ++ X :: after).Nodup)
    (hnodrift : ∀ j ∈ before ++ X :: after, gui_modified remoteHashes j = false)
    (hok : ∀ j ∈ before, f j = .ok)
    (hX : f X = .typeMismatch e p)
    (hconfirm : confirm (X, e, p) = false) :
    (push_command remoteHashes false f del confirm fuel
        (before ++ X :: after)).2.2 = X :: after ∧
      ((push_command remoteHashes false f del confirm fuel
        (before ++ X :: after)).2.1).Perm before := by
  have hfe : (before ++ X :: after).filter (gui_modified remoteHashes) = [] :=
    List.filter_eq_nil_iff.mpr (fun a ha => by rw [hnodrift a ha]; simp)
  have hcheck : check_for_gui_modifications remoteHashes false
      (before ++ X :: after) = ([], false) := by
    rw [check_for_gui_modifications, if_neg (by simp)]
    simp [hfe]
  have hloop : push_loop del confirm fuel f (before ++ X :: after) =
      X :: after := by
    obtain ⟨n, rfl⟩ := Nat.exists_eq_succ_of_ne_zero (Nat.pos_iff_ne_zero.mp hfuel)
    rw [push_loop]
    have hne : (before ++ X :: after).isEmpty = false := by simp
    rw [hne, push_jobs_mismatch f before after X e p hok hX]
    simp [hconfirm]
  rw [push_command, hcheck]
  simp only [if_neg (by simp : ¬(false = true)), hloop]
  exact ⟨trivial, pushed_report_perm_before before after X hnodup⟩

/-- Witness for `push_mismatch_decline_partition`: batch `["a", "x", "z"]`
where `"x"` hits a freestyle/multiconfig mismatch and the confirmation is
declined — `"a"` is reported pushed, `"x"` and `"z"` not pushed. -/
theorem push_mismatch_decline_partition_witness :
    (0 : Nat) < 1 ∧ (["a", "x", "z"] : List String).Nodup ∧
    (push_command (fun _ => none) false
        (fun j => if j = "x" then PushResult.typeMismatch "freestyle" "multiconfig"
          else PushResult.ok)
        (fun f _ => f) (fun _ => false) 1 ["a", "x", "z"]).2.2 = ["x", "z"] ∧
      ((push_command (fun _ => none) false
        (fun j => if j = "x" then PushResult.typeMismatch "freestyle" "multiconfig"
          else PushResult.ok)
        (fun f _ => f) (fun _ => false) 1 ["a", "x", "z"]).2.1).Perm ["a"] := by
  have h := push_mismatch_decline_partition (fun _ => none)
    (fun j => if j = "x" then PushResult.typeMismatch "freestyle" "multiconfig"
      else PushResult.ok)
    (fun f _ => f) (fun _ => false) 1 ["a"] ["z"] "x" "freestyle" "multiconfig"
    (by decide) (by simp) (fun j _ => rfl)
    (by intro j hj; simp at hj; subst hj; rfl) rfl rfl
  exact ⟨by decide, by simp, h.1, h.2⟩

/-- C3 (amended): when drift is detected for some requested job and
overwrite was not allowed, the run reports conflict for exactly the
drifted jobs and then the whole command exits before pushing anything: no
job of the batch is pushed, all are left not-pushed. -/
theorem drift_aborts_whole_run
    (remoteHashes : String → Option (Option Nat × Nat))
    (f : String → PushResult)
    (del : (String → PushResult) → String → (String → PushResult))
    (confirm : String × String × String → Bool)
    (fuel : Nat) (jobs_names : List String)
    (hdrift : ∃ j ∈ jobs_names, gui_modified remoteHashes j = true) :
    (push_command remoteHashes false f del confirm fuel jobs_names).1 =
        jobs_names.filter (gui_modified remoteHashes) ∧
      (push_command remoteHashes false f del confirm fuel jobs_names).2.1 = [] ∧
      (push_command remoteHashes false f del confirm fuel jobs_names).2.2 =
        jobs_names := by
  obtain ⟨j, hj, hdj⟩ := hdrift
  have hmem : j ∈ jobs_names.filter (gui_modified remoteHashes) :=
    List.mem_filter.mpr ⟨hj, hdj⟩
  have hne : (jobs_names.filter (gui_modified remoteHashes)).isEmpty = false := by
    rcases hx : jobs_names.filter (gui_modified remoteHashes) with _ | ⟨a, l⟩
    · rw [hx] at hmem; simp at hmem
    · rfl
  have hcheck : check_for_gui_modifications remoteHashes false jobs_names =
      (jobs_names.filter (gui_modified remoteHashes), true) := by
    rw [check_for_gui_modifications, if_neg (by simp)]
    simp [hne]
  rw [push_command, hcheck]
  exact ⟨rfl, rfl, rfl⟩

/-- Witness for `drift_aborts_whole_run` at a concrete two-job batch with
drift on `"J"` only. -/
theorem drift_aborts_whole_run_witness :
    (∃ j ∈ (["J", "K"] : List String),
      gui_modified (fun j => if j = "J" then some (some 1, 2)
        else some (none, 5)) j = true) ∧
    (push_command (fun j => if j = "J" then some (some 1, 2)
        else some (none, 5)) false (fun _ => PushResult.ok) (fun f _ => f)
        (fun _ => true) 1 ["J", "K"]).1 =
      (["J", "K"] : List String).filter (gui_modified
        (fun j => if j = "J" then some (some 1, 2) else some (none, 5))) ∧
    (push_command (fun j => if j = "J" then some (some 1, 2)
        else some (none, 5)) false (fun _ => PushResult.ok) (fun f _ => f)
        (fun _ => true) 1 ["J", "K"]).2.1 = [] := by
  have h := drift_aborts_whole_run
    (fun j => if j = "J" then some (some 1, 2) else some (none, 5))
    (fun _ => PushResult.ok) (fun f _ => f) (fun _ => true) 1 ["J", "K"]
    ⟨"J", by simp, rfl⟩
  exact ⟨⟨"J", by simp, rfl⟩, h.1, h.2.1⟩

/-- C3 counterexample: drift on `"J"` only (`"K"` is clean and every push
would succeed), yet the pushed list is empty — `"K"` is *not* pushed
normally; the whole run is refused, contradicting "the other jobs of the
batch are unaffected". -/
theorem drift_refusal_counterexample :
    gui_modified (fun j => if j = "J" then some (some 1, 2)
      else some (none, 5)) "K" = false ∧
    gui_modified (fun j => if j = "J" then some (some 1, 2)
      else some (none, 5)) "J" = true ∧
    push_command (fun j => if j = "J" then some (some 1, 2)
        else some (none, 5)) false (fun _ => PushResult.ok) (fun f _ => f)
        (fun _ => true) 1 ["J", "K"] =
      (["J"], [], ["J", "K"]) :=
  ⟨rfl, rfl, rfl⟩

/-- Closed form of one queue sweep when no transport error occurs: the
entries still queued, the resolved `(job, build_url)` pairs, and the
unknown-status jobs, each read off the response oracle. -/
theorem sweep_queue_eq (resp : String → QueueResp) (W : List (String × String))
    (hne : ∀ j ∈ W.map Prod.fst, (resp j).isTransportError = false) :
    sweep_queue resp W = Except.ok
      (W.filter (fun jq => decide (resp jq.1 = QueueResp.infos none)),
       W.filterMap (fun jq => match resp jq.1 with
         | QueueResp.infos (some u) => some (jq.1, u)
         | _ => none),
       W.filterMap (fun jq =>
         if resp jq.1 = QueueResp.httpError 404 then some jq.1 else none)) := by
  induction W with
  | nil => rfl
  | cons jq rest ih =>
    obtain ⟨j, q⟩ := jq
    have hj : (resp j).isTransportError = false := hne j (by simp)
    have hr : ∀ j' ∈ rest.map Prod.fst, (resp j').isTransportError = false :=
      fun j' h => hne j' (by simp [h])
    rw [sweep_queue]
    cases hresp : resp j with
    | httpError c =>
      have hc : c = 404 := by
        rw [hresp] at hj
        simpa [QueueResp.isTransportError] using hj
      subst hc
      rw [ih hr]
      simp [List.filter_cons, List.filterMap_cons, hresp, Except.map]
    | infos ex =>
      cases ex with
      | some u =>
        rw [ih hr]
        simp [List.filter_cons, List.filterMap_cons, hresp, Except.map]
      | none =>
        rw [ih hr]
        simp [List.filter_cons, List.filterMap_cons, hresp, Except.map]

/-- A transport error anywhere in the working set makes the whole queue
sweep re-raise. -/
theorem sweep_queue_error (resp : String → QueueResp) (W : List (String × String))
    (h : ∃ j ∈ W.map Prod.fst, (resp j).isTransportError = true) :
    ∃ c, sweep_queue resp W = Except.error c := by
  induction W with
  | nil => simp at h
  | cons jq rest ih =>
    obtain ⟨j, q⟩ := jq
    have hrest : resp j = QueueResp.httpError 404 ∨ (∃ ex, resp j = .infos ex) →
        ∃ j' ∈ rest.map Prod.fst, (resp j').isTransportError = true := by
      intro hj
      obtain ⟨j', hj', he⟩ := h
      simp only [List.map_cons, List.mem_cons] at hj'
      rcases hj' with rfl | hmem
      · rcases hj with h4 | ⟨ex, hex⟩
        · rw [h4] at he; simp [QueueResp.isTransportError] at he
        · rw [hex] at he; simp [QueueResp.isTransportError] at he
      · exact ⟨j', hmem, he⟩
    rw [sweep_queue]
    cases hresp : resp j with
    | httpError c =>
      by_cases h4 : c = 404
      · subst h4
        obtain ⟨c', hc'⟩ := ih (hrest (Or.inl hresp))
        exact ⟨c', by simp [hc', Except.map]⟩
      · exact ⟨c, by simp [h4]⟩
    | infos ex =>
      obtain ⟨c', hc'⟩ := ih (hrest (Or.inr ⟨ex, hresp⟩))
      cases ex with
      | some u => exact ⟨c', by simp [hc', Except.map]⟩
      | none => exact ⟨c', by simp [hc', Except.map]⟩

/-- Membership in the still-queued part of a sweep forces a
still-queued response for that job name. -/
theorem queued_mem_resp (resp : String → QueueResp) (W : List (String × String))
    (jq : String × String)
    (h : jq ∈ W.filter (fun jq => decide (resp jq.1 = QueueResp.infos none))) :
    resp jq.1 = QueueResp.infos none := by
  simpa using (List.mem_filter.mp h).2

/-- Membership in the resolved part of a sweep forces an `executable`
response for that job name. -/
theorem resolved_mem_resp (resp : String → QueueResp) (W : List (String × String))
    (p : String × String)
    (h : p ∈ W.filterMap (fun jq => match resp jq.1 with
      | QueueResp.infos (some u) => some (jq.1, u)
      | _ => none)) :
    resp p.1 = QueueResp.infos (some p.2) := by
  obtain ⟨a, _, ha⟩ := List.mem_filterMap.mp h
  cases hra : resp a.1 with
  | httpError c => rw [hra] at ha; cases ha
  | infos ex =>
    cases ex with
    | none => rw [hra] at ha; cases ha
    | some u =>
      rw [hra, Option.some_inj] at ha
      rw [← ha]
      exact hra

/-- Membership in the unknown-status part of a sweep forces a 404
response for that job name. -/
theorem unknown_mem_resp (resp : String → QueueResp) (W : List (String × String))
    (j : String)
    (h : j ∈ W.filterMap (fun jq =>
      if resp jq.1 = QueueResp.httpError 404 then some jq.1 else none)) :
    resp j = QueueResp.httpError 404 := by
  obtain ⟨a, _, ha⟩ := List.mem_filterMap.mp h
  by_cases hc : resp a.1 = QueueResp.httpError 404
  · rw [if_pos hc, Option.some_inj] at ha
    rw [← ha]
    exact hc
  · rw [if_neg hc] at ha; cases ha

/-- C5: during queue resolution, a job whose queue handle polls as 404 is
removed from the working set and recorded as unknown status while the
sweep still succeeds; a job whose queue item reports an assigned build
location is moved out of the working set with that location; a job still
queued stays; and any other HTTP transport failure in the working set
makes the sweep re-raise, aborting the run. -/
theorem queue_resolution_behavior (resp : String → QueueResp)
    (W : List (String × String)) :
    ((∀ j ∈ W.map Prod.fst, (resp j).isTransportError = false) →
      ∃ W' R U, sweep_queue resp W = Except.ok (W', R, U) ∧
        ∀ j q, (j, q) ∈ W →
          ((resp j = .httpError 404 →
              j ∈ U ∧ j ∉ W'.map Prod.fst ∧ j ∉ R.map Prod.fst) ∧
           (∀ u, resp j = .infos (some u) →
              (j, u) ∈ R ∧ j ∉ W'.map Prod.fst ∧ j ∉ U) ∧
           (resp j = .infos none →
              (j, q) ∈ W' ∧ j ∉ U ∧ j ∉ R.map Prod.fst))) ∧
    ((∃ j ∈ W.map Prod.fst, (resp j).isTransportError = true) →
      ∃ c, sweep_queue resp W = Except.error c) := by
  constructor
  · intro hne
    refine ⟨_, _, _, sweep_queue_eq resp W hne, ?_⟩
    intro j q hjq
    refine ⟨?_, ?_, ?_⟩
    · intro h404
      refine ⟨List.mem_filterMap.mpr ⟨(j, q), hjq, by rw [if_pos h404]⟩, ?_, ?_⟩
      · intro hmem
        obtain ⟨jq', hjq', hfst⟩ := List.mem_map.mp hmem
        have := queued_mem_resp resp W jq' hjq'
        rw [hfst, h404] at this
        cases this
      · intro hmem
        obtain ⟨p, hp, hfst⟩ := List.mem_map.mp hmem
        have := resolved_mem_resp resp W p hp
        rw [hfst, h404] at this
        cases this
    · intro u hu
      refine ⟨List.mem_filterMap.mpr ⟨(j, q), hjq, by rw [hu]⟩, ?_, ?_⟩
      · intro hmem
        obtain ⟨jq', hjq', hfst⟩ := List.mem_map.mp hmem
        have := queued_mem_resp resp W jq' hjq'
        rw [hfst, hu] at this
        cases this
      · intro hmem
        have := unknown_mem_resp resp W j hmem
        rw [hu] at this
        cases this
    · intro hq
      refine ⟨List.mem_filter.mpr ⟨hjq, by simpa using hq⟩, ?_, ?_⟩
      · intro hmem
        have := unknown_mem_resp resp W j hmem
        rw [hq] at this
        cases this
      · intro hmem
        obtain ⟨p, hp, hfst⟩ := List.mem_map.mp hmem
        have := resolved_mem_resp resp W p hp
        rw [hfst, hq] at this
        cases this
  · exact sweep_queue_error resp W

/-- Witness for `queue_resolution_behavior`: jobs `a` (resolving to build
URL `build5`) and `b` (queue item 404), per the spec's concrete scenario
C — the sweep succeeds, `a` is resolved, `b` is reported unknown. -/
theorem queue_resolution_behavior_witness :
    (∀ j ∈ ([("a", "qa"), ("b", "qb")] : List (String × String)).map Prod.fst,
      ((fun j => if j = "a" then QueueResp.infos (some "build5")
        else QueueResp.httpError 404) j).isTransportError = false) ∧
    ∃ W' R U,
      sweep_queue (fun j => if j = "a" then QueueResp.infos (some "build5")
          else QueueResp.httpError 404) [("a", "qa"), ("b", "qb")] =
        Except.ok (W', R, U) ∧
      ("a", "build5") ∈ R ∧ "b" ∈ U ∧ "b" ∉ W'.map Prod.fst := by
  have h := (queue_resolution_behavior
    (fun j => if j = "a" then QueueResp.infos (some "build5")
      else QueueResp.httpError 404) [("a", "qa"), ("b", "qb")]).1 (by decide)
  obtain ⟨W', R, U, hok, hall⟩ := h
  have ha := ((hall "a" "qa" (by simp)).2.1 "build5" rfl).1
  have hb := (hall "b" "qb" (by simp)).1 rfl
  exact ⟨by decide, W', R, U, hok, ha, hb.1, hb.2.1⟩

/-- A sweep of the build-polling loop partitions the working set: the
resolved names followed by the still-running names permute the input. -/
theorem sweep_poll_perm (resp : String → Option (String × List String))
    (working : List (String × String)) :
    ((sweep_poll resp working).2.map Prod.fst ++
        (sweep_poll resp working).1.map Prod.fst).Perm
      (working.map Prod.fst) := by
  induction working with
  | nil => simp [sweep_poll]
  | cons jb rest ih =>
    obtain ⟨j, b⟩ := jb
    cases hresp : resp j with
    | some p =>
      have hs : sweep_poll resp ((j, b) :: rest) =
          ((sweep_poll resp rest).1,
           (j, (b, p.1, p.2)) :: (sweep_poll resp rest).2) := by
        rw [sweep_poll, hresp]
      rw [hs]
      simpa using List.Perm.cons j ih
    | none =>
      have hs : sweep_poll resp ((j, b) :: rest) =
          ((j, b) :: (sweep_poll resp rest).1, (sweep_poll resp rest).2) := by
        rw [sweep_poll, hresp]
      rw [hs]
      simpa using List.Perm.trans List.perm_middle (List.Perm.cons j ih)

/-- C4 (amended): when the bounded polling loop terminates, every
triggered job is reported exactly once — the reported names permute the
working set — but in completion order (the insertion order of the results
mapping built by `_poll_builds`), not necessarily the caller's original
requested order. -/
theorem poll_builds_report_perm
    (respAt : Nat → String → Option (String × List String))
    (fuel s : Nat) (working : List (String × String))
    (out : List (String × (String × String × List String)))
    (h : poll_builds respAt fuel s working = some out) :
    (build_report_order out).Perm (working.map Prod.fst) := by
  induction fuel generalizing s working out with
  | zero =>
    rw [poll_builds] at h
    rcases working with _ | ⟨jb, rest⟩
    · simp only [List.isEmpty_nil, if_pos] at h
      obtain rfl : ([] : List (String × (String × String × List String))) = out :=
        Option.some_inj.mp h
      simp [build_report_order]
    · simp [List.isEmpty_cons] at h
  | succ n ih =>
    rw [poll_builds] at h
    rcases hw : working with _ | ⟨jb, rest⟩
    · subst hw
      simp only [List.isEmpty_nil, if_pos] at h
      obtain rfl : ([] : List (String × (String × String × List String))) = out :=
        Option.some_inj.mp h
      simp [build_report_order]
    · subst hw
      simp only [List.isEmpty_cons, Bool.false_eq_true, if_false,
        Option.map_eq_some'] at h
      obtain ⟨out', hout', rfl⟩ := h
      have hperm := ih (s + 1) _ out' hout'
      rw [build_report_order] at hperm ⊢
      rw [List.map_append]
      have h2 : ((sweep_poll (respAt s) (jb :: rest)).2.map Prod.fst ++
            out'.map Prod.fst).Perm
          ((sweep_poll (respAt s) (jb :: rest)).2.map Prod.fst ++
            (sweep_poll (respAt s) (jb :: rest)).1.map Prod.fst) :=
        List.Perm.append_left _ hperm
      exact h2.trans (sweep_poll_perm (respAt s) (jb :: rest))

/-- Witness for `poll_builds_report_perm` at a concrete two-job run. -/
theorem poll_builds_report_perm_witness :
    poll_builds (fun _ _ => some ("SUCCESS", [])) 1 0 [("a", "ua"), ("b", "ub")] =
      some [("a", ("ua", "SUCCESS", [])), ("b", ("ub", "SUCCESS", []))] ∧
    (build_report_order
        [("a", ("ua", "SUCCESS", [])), ("b", ("ub", "SUCCESS", []))]).Perm
      ([("a", "ua"), ("b", "ub")].map Prod.fst) :=
  ⟨rfl, poll_builds_report_perm (fun _ _ => some ("SUCCESS", [])) 1 0
    [("a", "ua"), ("b", "ub")] _ rfl⟩

/-- C4 counterexample: jobs requested in order `["a", "b"]`, but `b`'s
build finishes a sweep earlier than `a`'s — the results mapping iterates
`["b", "a"]`, so results are printed in completion order, not the caller's
original requested order. -/
theorem poll_builds_requested_order_counterexample :
    poll_builds (fun s j => if s = 0 then
        (if j = "b" then some ("SUCCESS", []) else none)
      else some ("SUCCESS", [])) 2 0 [("a", "ua"), ("b", "ub")] =
      some [("b", ("ub", "SUCCESS", [])), ("a", ("ua", "SUCCESS", []))] ∧
    build_report_order
        [("b", ("ub", "SUCCESS", [])), ("a", ("ua", "SUCCESS", []))] =
      ["b", "a"] ∧
    (["b", "a"] : List String) ≠ ["a", "b"] :=
  ⟨rfl, rfl, by decide⟩

/-- C8: whenever at least one triggered build resolved to a terminal
result, the `build` command's exit status is nonzero — the test compares
each whole `(build_url, result, runs_urls)` tuple, never the result string
alone, against `'SUCCESS'`, so it is `True` for every entry regardless of
the result value. -/
theorem build_exit_nonzero_of_results
    (results : List (String × (String × String × List String)))
    (h : results ≠ []) : build_exit_nonzero results = true := by
  rcases results with _ | ⟨kv, rest⟩
  · exact absurd rfl h
  · simp [build_exit_nonzero]

/-- Witness for `build_exit_nonzero_of_results`: a single build whose
result is the string `SUCCESS` still exits nonzero. -/
theorem build_exit_nonzero_of_results_witness :
    ([("a", ("u", "SUCCESS", []))] :
        List (String × (String × String × List String))) ≠ [] ∧
    build_exit_nonzero [("a", ("u", "SUCCESS", []))] = true :=
  ⟨by simp, build_exit_nonzero_of_results [("a", ("u", "SUCCESS", []))] (by simp)⟩

/-! ### Heap lemmas for the frame property -/

theorem storeLookup_mem (l : List (Nat × PDict)) (a : Nat) (d : PDict)
    (h : storeLookup l a = some d) : (a, d) ∈ l := by
  induction l with
  | nil => cases h
  | cons ad rest ih =>
    obtain ⟨a', d'⟩ := ad
    rw [storeLookup] at h
    by_cases ha : a' = a
    · subst ha
      rw [if_pos rfl, Option.some_inj] at h
      subst h
      exact List.mem_cons_self _ _
    · rw [if_neg ha] at h
      exact List.mem_cons_of_mem _ (ih h)

theorem Heap.get_set_self (h : Heap) (a : Nat) (d : PDict) :
    (h.set a d).get a = some d := by
  simp [Heap.get, Heap.set, storeLookup]

theorem Heap.get_set_other (h : Heap) (a b : Nat) (d : PDict) (hne : a ≠ b) :
    (h.set a d).get b = h.get b := by
  simp [Heap.get, Heap.set, storeLookup, hne]

theorem Heap.get_alloc_other (h : Heap) (d : PDict) (b : Nat) (hb : b ≠ h.next) :
    ((h.alloc d).2).get b = h.get b := by
  have hne : h.next ≠ b := fun hx => hb hx.symm
  simp [Heap.get, Heap.alloc, storeLookup, hne]

theorem Heap.get_alloc_self (h : Heap) (d : PDict) :
    ((h.alloc d).2).get h.next = some d := by
  simp [Heap.get, Heap.alloc, storeLookup]

theorem Heap.wf_get_lt (h : Heap) (hwf : h.wfBool = true) (a : Nat) (d : PDict)
    (hget : h.get a = some d) : a < h.next := by
  have hmem := storeLookup_mem h.store a d hget
  have := List.all_eq_true.mp hwf ⟨a, d⟩ hmem
  exact of_decide_eq_true this

theorem Heap.wfBool_set (h : Heap) (hwf : h.wfBool = true) (a : Nat) (d : PDict)
    (ha : a < h.next) : (h.set a d).wfBool = true := by
  rw [Heap.wfBool] at hwf ⊢
  simp only [Heap.set, List.all_cons, Bool.and_eq_true, decide_eq_true_eq]
  exact ⟨ha, hwf⟩

theorem Heap.wfBool_alloc (h : Heap) (hwf : h.wfBool = true) (d : PDict) :
    ((h.alloc d).2).wfBool = true := by
  rw [Heap.wfBool] at hwf ⊢
  simp only [Heap.alloc, List.all_cons, Bool.and_eq_true, decide_eq_true_eq]
  refine ⟨Nat.lt_succ_self _, List.all_eq_true.mpr ?_⟩
  intro ad hmem
  have := of_decide_eq_true (List.all_eq_true.mp hwf ad hmem)
  exact decide_eq_true (Nat.lt_succ_of_lt this)

theorem mem_setEntry (d : PDict) (k : String) (v : PVal) (k' : String) (w : PVal)
    (h : (k', w) ∈ setEntry d k v) : (k', w) ∈ d ∨ w = v := by
  induction d with
  | nil =>
    rw [setEntry] at h
    rcases List.mem_singleton.mp h with h'
    exact Or.inr (congrArg Prod.snd h')
  | cons kv rest ih =>
    obtain ⟨k0, v0⟩ := kv
    rw [setEntry] at h
    by_cases hk : k0 = k
    · rw [if_pos hk] at h
      rcases List.mem_cons.mp h with h' | h'
      · exact Or.inr (congrArg Prod.snd h')
      · exact Or.inl (List.mem_cons_of_mem _ h')
    · rw [if_neg hk] at h
      rcases List.mem_cons.mp h with h' | h'
      · exact Or.inl (h' ▸ List.mem_cons_self _ _)
      · rcases ih h' with h'' | h''
        · exact Or.inl (List.mem_cons_of_mem _ h'')
        · exact Or.inr h''

theorem getEntry_mem (d : PDict) (k : String) (v : PVal)
    (h : getEntry d k = some v) : (k, v) ∈ d := by
  induction d with
  | nil => cases h
  | cons kv rest ih =>
    obtain ⟨k0, v0⟩ := kv
    rw [getEntry] at h
    by_cases hk : k0 = k
    · subst hk
      rw [if_pos rfl, Option.some_inj] at h
      subst h
      exact List.mem_cons_self _ _
    · rw [if_neg hk] at h
      exact List.mem_cons_of_mem _ (ih h)

mutual

/-- Deep copy of a value only allocates: addresses already allocated
keep their contents, the allocation bound grows, well-formedness is kept,
a returned reference is fresh, and a closed region stays closed. -/
theorem dcVal_spec (fuel : Nat) (h : Heap) (v : PVal) (v' : PVal) (h' : Heap)
    (hdc : dcVal fuel h v = some (v', h')) (hwf : h.wfBool = true) :
    (∀ a, a < h.next → h'.get a = h.get a) ∧ h.next ≤ h'.next ∧
      h'.wfBool = true ∧
      (∀ b, v' = PVal.ref b → h.next ≤ b ∧ b < h'.next) ∧
      (∀ n, n ≤ h.next → h.closedAbove n → h'.closedAbove n) := by
  match fuel, v with
  | _, .scalar m =>
    rw [dcVal, Option.some_inj] at hdc
    injection hdc with h1 h2
    subst h1
    subst h2
    refine ⟨fun a _ => rfl, Nat.le_refl _, hwf, ?_, fun n _ hca => hca⟩
    intro b hb
    exact absurd hb (by simp)
  | 0, .ref a => cases hdc
  | fuel + 1, .ref a =>
    rw [dcVal] at hdc
    split at hdc
    · cases hdc
    · rename_i d hget
      split at hdc
      · cases hdc
      · rename_i p d' h1 hdd
        rw [Option.some_inj] at hdc
        injection hdc with hv' hh'
        subst hv'
        subst hh'
        obtain ⟨hfr, hmono, hwf1, hrefs, hca⟩ := dcDict_spec fuel h d d' h1 hdd hwf
        refine ⟨?_, ?_, Heap.wfBool_alloc h1 hwf1 d', ?_, ?_⟩
        · intro b hb
          rw [Heap.get_alloc_other h1 d' b
            (Nat.ne_of_lt (Nat.lt_of_lt_of_le hb hmono))]
          exact hfr b hb
        · exact Nat.le_trans hmono (Nat.le_succ _)
        · intro b hb
          injection hb with hb'
          subst hb'
          exact ⟨hmono, Nat.lt_succ_self _⟩
        · intro n hn hcan
          have hca1 := hca n hn hcan
          intro c dd hgetc hc k b hkb
          by_cases hcnext : c = h1.next
          · subst hcnext
            rw [Heap.get_alloc_self, Option.some_inj] at hgetc
            subst hgetc
            exact Nat.le_trans hn (hrefs k b hkb).1
          · rw [Heap.get_alloc_other h1 d' c hcnext] at hgetc
            exact hca1 c dd hgetc hc k b hkb

/-- Dict-contents version of `dcVal_spec`; the copied contents hold only
fresh references. -/
theorem dcDict_spec (fuel : Nat) (h : Heap) (d : PDict) (d' : PDict) (h' : Heap)
    (hdc : dcDict fuel h d = some (d', h')) (hwf : h.wfBool = true) :
    (∀ a, a < h.next → h'.get a = h.get a) ∧ h.next ≤ h'.next ∧
      h'.wfBool = true ∧
      (∀ k b, (k, PVal.ref b) ∈ d' → h.next ≤ b ∧ b < h'.next) ∧
      (∀ n, n ≤ h.next → h.closedAbove n → h'.closedAbove n) := by
  match fuel, d with
  | _, [] =>
    rw [dcDict, Option.some_inj] at hdc
    injection hdc with h1 h2
    subst h1
    subst h2
    refine ⟨fun a _ => rfl, Nat.le_refl _, hwf, ?_, fun n _ hca => hca⟩
    intro k b hb
    exact absurd hb (by simp)
  | 0, _ :: _ => cases hdc
  | fuel + 1, (k0, v0) :: rest =>
    rw [dcDict] at hdc
    split at hdc
    · cases hdc
    · rename_i p v1 h1 hv
      split at hdc
      · cases hdc
      · rename_i q rest' h2 hr
        rw [Option.some_inj] at hdc
        injection hdc with hd' hh'
        subst hd'
        subst hh'
        obtain ⟨hfr1, hmono1, hwf1, hrefs1, hca1⟩ :=
          dcVal_spec fuel h v0 v1 h1 hv hwf
        obtain ⟨hfr2, hmono2, hwf2, hrefs2, hca2⟩ :=
          dcDict_spec fuel h1 rest rest' h2 hr hwf1
        refine ⟨?_, Nat.le_trans hmono1 hmono2, hwf2, ?_, ?_⟩
        · intro a ha
          rw [hfr2 a (Nat.lt_of_lt_of_le ha hmono1), hfr1 a ha]
        · intro k b hkb
          rcases List.mem_cons.mp hkb with hk | hk
          · have hv1 : v1 = PVal.ref b := (congrArg Prod.snd hk).symm
            obtain ⟨h1b, h2b⟩ := hrefs1 b hv1
            exact ⟨h1b, Nat.lt_of_lt_of_le h2b hmono2⟩
          · obtain ⟨h1b, h2b⟩ := hrefs2 k b hk
            exact ⟨Nat.le_trans hmono1 h1b, h2b⟩
        · intro n hn hcan
          exact hca2 n (Nat.le_trans hn hmono1) (hca1 n hn hcan)

end

/-- The `setdefault` walk starting from an address in the closed fresh
region mutates only that region: every address below `n` keeps its
contents; allocation bound, well-formedness, and — when the assigned value
holds no reference below `n` — closure are maintained. -/
theorem setPathLoop_spec (n : Nat) (path : List String) :
    ∀ (h : Heap) (cur : Nat) (v : PVal) (h' : Heap),
    setPathLoop h cur path v = some h' →
    h.wfBool = true → h.closedAbove n → n ≤ cur → n ≤ h.next →
    (∀ a, a < n → h'.get a = h.get a) ∧ h.next ≤ h'.next ∧
      h'.wfBool = true ∧
      ((∀ b, v = PVal.ref b → n ≤ b) → h'.closedAbove n) := by
  match path with
  | [] =>
    intro h cur v h' hsp hwf hca hcur hnext
    rw [setPathLoop, Option.some_inj] at hsp
    subst hsp
    exact ⟨fun a _ => rfl, Nat.le_refl _, hwf, fun _ => hca⟩
  | [k] =>
    intro h cur v h' hsp hwf hca hcur hnext
    rw [setPathLoop] at hsp
    split at hsp
    · cases hsp
    · rename_i d hget
      rw [Option.some_inj] at hsp
      subst hsp
      have hlt : cur < h.next := Heap.wf_get_lt h hwf cur d hget
      refine ⟨?_, Nat.le_refl _, Heap.wfBool_set h hwf cur _ hlt, ?_⟩
      · intro a ha
        exact Heap.get_set_other h cur a _
          (Nat.ne_of_gt (Nat.lt_of_lt_of_le ha hcur))
      · intro hv c dd hgetc hc k' b hkb
        by_cases hcc : c = cur
        · subst hcc
          rw [Heap.get_set_self, Option.some_inj] at hgetc
          subst hgetc
          rcases mem_setEntry d k v k' (PVal.ref b) hkb with hmem | hveq
          · exact hca c d hget hc k' b hmem
          · exact hv b hveq.symm
        · rw [Heap.get_set_other h cur c _ (fun hx => hcc hx.symm)] at hgetc
          exact hca c dd hgetc hc k' b hkb
  | k :: k2 :: rest =>
    intro h cur v h' hsp hwf hca hcur hnext
    rw [setPathLoop] at hsp
    split at hsp
    · cases hsp
    · rename_i d hget
      have hlt : cur < h.next := Heap.wf_get_lt h hwf cur d hget
      split at hsp
      · rename_i b hb
        have hnb : n ≤ b := hca cur d hget hcur k b (getEntry_mem d k _ hb)
        exact setPathLoop_spec n (k2 :: rest) h b v h' hsp hwf hca hnb hnext
      · cases hsp
      · rename_i hnone
        have hwf1 :
            (((h.alloc []).2).set cur
              (setEntry d k (PVal.ref (h.alloc []).1))).wfBool = true := by
          apply Heap.wfBool_set _ (Heap.wfBool_alloc h hwf []) cur
          exact Nat.lt_succ_of_lt hlt
        have hca1 :
            (((h.alloc []).2).set cur
              (setEntry d k (PVal.ref (h.alloc []).1))).closedAbove n := by
          intro c dd hgetc hc k' b hkb
          by_cases hcc : c = cur
          · subst hcc
            rw [Heap.get_set_self, Option.some_inj] at hgetc
            subst hgetc
            rcases mem_setEntry d k _ k' (PVal.ref b) hkb with hmem | hveq
            · exact hca c d hget hc k' b hmem
            · have hbn : b = h.next := by
                injection hveq with hv'
              rw [hbn]
              exact hnext
          · rw [Heap.get_set_other _ cur c _ (fun hx => hcc hx.symm)] at hgetc
            by_cases hcn : c = h.next
            · subst hcn
              rw [Heap.get_alloc_self, Option.some_inj] at hgetc
              subst hgetc
              exact absurd hkb (by simp)
            · rw [Heap.get_alloc_other h [] c hcn] at hgetc
              exact hca c dd hgetc hc k' b hkb
        obtain ⟨hfr, hmono, hwf', hclose⟩ :=
          setPathLoop_spec n (k2 :: rest) _ (h.alloc []).1 v h' hsp hwf1 hca1
            hnext (Nat.le_succ_of_le hnext)
        refine ⟨?_, ?_, hwf', hclose⟩
        · intro a ha
          rw [hfr a ha,
            Heap.get_set_other _ cur a _
              (Nat.ne_of_gt (Nat.lt_of_lt_of_le ha hcur)),
            Heap.get_alloc_other h [] a
              (Nat.ne_of_lt (Nat.lt_of_lt_of_le ha hnext))]
        · exact Nat.le_trans (Nat.le_succ _) hmono

/-- Folding the scalar-leaf path assignments of a `deep_merge` over the
copy keeps every old address intact. -/
theorem foldl_setPathLoop_spec (n ret : Nat) (flat : List (List String × Nat)) :
    ∀ (h h' : Heap),
    flat.foldlM (fun hh pv => setPathLoop hh ret pv.1 (PVal.scalar pv.2)) h =
      some h' →
    h.wfBool = true → h.closedAbove n → n ≤ ret → n ≤ h.next →
    (∀ a, a < n → h'.get a = h.get a) ∧ h.next ≤ h'.next ∧
      h'.wfBool = true ∧ h'.closedAbove n := by
  induction flat with
  | nil =>
    intro h h' hf hwf hca hret hnext
    have hf' : h = h' := Option.some_inj.mp hf
    subst hf'
    exact ⟨fun a _ => rfl, Nat.le_refl _, hwf, hca⟩
  | cons pv rest ih =>
    intro h h' hf hwf hca hret hnext
    rw [List.foldlM_cons] at hf
    cases hsp : setPathLoop h ret pv.1 (PVal.scalar pv.2) with
    | none => rw [hsp] at hf; cases hf
    | some h1 =>
      rw [hsp] at hf
      have hf2 : rest.foldlM
          (fun hh pv => setPathLoop hh ret pv.1 (PVal.scalar pv.2)) h1 =
          some h' := hf
      obtain ⟨hfr1, hmono1, hwf1, hclose1⟩ :=
        setPathLoop_spec n pv.1 h ret (PVal.scalar pv.2) h1 hsp hwf hca hret hnext
      have hca1 : h1.closedAbove n := hclose1 (fun b hb => absurd hb (by simp))
      obtain ⟨hfr2, hmono2, hwf2, hca2⟩ :=
        ih h1 h' hf2 hwf1 hca1 hret (Nat.le_trans hnext hmono1)
      exact ⟨fun a ha => (hfr2 a ha).trans (hfr1 a ha),
        Nat.le_trans hmono1 hmono2, hwf2, hca2⟩

/-- C10: with `inplace` left false, `set_path_in_dict` and `deep_merge`
both return a *new* mapping — a freshly allocated address at or above the
old allocation bound — and leave every input mapping (`dct`, `dct_a`,
`dct_b`) unmodified, including all of their nested sub-mappings: the
contents of every previously allocated address are unchanged. -/
theorem set_path_deep_merge_no_mutation (fuel : Nat) (h : Heap)
    (hwf : h.wfBool = true) :
    (∀ dct path v ret h',
      set_path_in_dict fuel h dct path v = some (ret, h') →
        (∀ a, a < h.next → h'.get a = h.get a) ∧ h.next ≤ ret) ∧
    (∀ da db ret h',
      deep_merge fuel h da db = some (ret, h') →
        (∀ c, c < h.next → h'.get c = h.get c) ∧ h.next ≤ ret) := by
  have hvac : h.closedAbove h.next := by
    intro a d hget hge
    exact absurd (Heap.wf_get_lt h hwf a d hget) (Nat.not_lt.mpr hge)
  constructor
  · intro dct path v ret h' hsp
    rw [set_path_in_dict] at hsp
    split at hsp
    · rename_i r h1 hdc
      simp only [Option.map_eq_some'] at hsp
      obtain ⟨h2, hsp2, hreth⟩ := hsp
      injection hreth with hret hh'
      subst hret
      subst hh'
      obtain ⟨hfr1, hmono1, hwf1, hrefs1, hca1⟩ :=
        dcVal_spec fuel h (PVal.ref dct) _ h1 hdc hwf
      obtain ⟨hr1, hr2⟩ := hrefs1 _ rfl
      obtain ⟨hfr2, hmono2, hwf2, _⟩ :=
        setPathLoop_spec h.next path h1 _ v h2 hsp2 hwf1
          (hca1 h.next (Nat.le_refl _) hvac) hr1 hmono1
      exact ⟨fun a ha => (hfr2 a ha).trans (hfr1 a ha), hr1⟩
    · cases hsp
  · intro da db ret h' hdm
    rw [deep_merge] at hdm
    split at hdm
    · rename_i r h1 hdc
      split at hdm
      · cases hdm
      · rename_i dbv hgetb
        split at hdm
        · cases hdm
        · rename_i flat hflat
          simp only [Option.map_eq_some'] at hdm
          obtain ⟨h2, hfold, hreth⟩ := hdm
          injection hreth with hret hh'
          subst hret
          subst hh'
          obtain ⟨hfr1, hmono1, hwf1, hrefs1, hca1⟩ :=
            dcVal_spec fuel h (PVal.ref da) _ h1 hdc hwf
          obtain ⟨hr1, hr2⟩ := hrefs1 _ rfl
          obtain ⟨hfr2, hmono2, hwf2, _⟩ :=
            foldl_setPathLoop_spec h.next _ flat h1 h2 hfold hwf1
              (hca1 h.next (Nat.le_refl _) hvac) hr1 hmono1
          exact ⟨fun c hc => (hfr2 c hc).trans (hfr1 c hc), hr1⟩
    · cases hdm

/-- Witness for `set_path_deep_merge_no_mutation`: a heap with two
dicts — `{'k': 5}` at address 0, `{'m': 7}` at address 1 — where
`set_path_in_dict(dict0, ('a','b'), 9)` and `deep_merge(dict0, dict1)`
both succeed, return the fresh address 2, and leave addresses 0 and 1
untouched. -/
theorem set_path_deep_merge_no_mutation_witness :
    (Heap.mk [(0, [("k", PVal.scalar 5)]), (1, [("m", PVal.scalar 7)])]
        2).wfBool = true ∧
    (∃ h', set_path_in_dict 10
        (Heap.mk [(0, [("k", PVal.scalar 5)]), (1, [("m", PVal.scalar 7)])] 2)
        0 ["a", "b"] (PVal.scalar 9) = some (2, h') ∧
      h'.get 0 = some [("k", PVal.scalar 5)] ∧
      h'.get 1 = some [("m", PVal.scalar 7)]) ∧
    (∃ h', deep_merge 10
        (Heap.mk [(0, [("k", PVal.scalar 5)]), (1, [("m", PVal.scalar 7)])] 2)
        0 1 = some (2, h') ∧
      h'.get 0 = some [("k", PVal.scalar 5)] ∧
      h'.get 1 = some [("m", PVal.scalar 7)]) := by
  obtain ⟨hsp, hdm⟩ := set_path_deep_merge_no_mutation 10
    (Heap.mk [(0, [("k", PVal.scalar 5)]), (1, [("m", PVal.scalar 7)])] 2)
    (by decide)
  obtain ⟨hfr1, _⟩ := hsp 0 ["a", "b"] (PVal.scalar 9) 2 _ rfl
  obtain ⟨hfr2, _⟩ := hdm 0 1 2 _ rfl
  refine ⟨by decide, ⟨_, rfl, ?_, ?_⟩, ⟨_, rfl, ?_, ?_⟩⟩
  · exact (hfr1 0 (by decide)).trans rfl
  · exact (hfr1 1 (by decide)).trans rfl
  · exact (hfr2 0 (by decide)).trans rfl
  · exact (hfr2 1 (by decide)).trans rfl

end Jenskipper
